import Mathlib

/-!
Verification of the graph generation / traversal / analysis program
(`graph.py`, class `GraphAnalyzer`).

The Python code is shallowly embedded: the mutable analyzer object becomes an
explicit `AnalyzerState` record, `networkx` graphs become a `Graph` record
(node list, edge list, per-node attribute association list), Python dicts
become association lists looked up with `alookup`, floating point quantities
become exact rationals (for the analysis metrics) or reals (for the
Erdős–Rényi edge probability, which involves `ln`), and code that raises
exceptions returns `Except String`.
-/

set_option maxHeartbeats 1000000

namespace CECS427

/-- Python dict lookup on an association list: first binding of the key wins
(our lists bind each key at most once, matching dict semantics). -/
def alookup {β : Type} (k : Nat) : List (Nat × β) → Option β
  | [] => none
  | (k', v) :: rest => if k' = k then some v else alookup k rest

/-- The in-memory `networkx` undirected graph held in `self.graph`: node
identifiers (integers in every code path of this program), an edge list of
unordered pairs recorded in insertion orientation, and per-node attribute
dictionaries (string key/value, as produced by GML round-tripping). -/
structure Graph where
  nodes : List Nat
  edges : List (Nat × Nat)
  attrs : List (Nat × List (String × String))
deriving DecidableEq, Repr

/-- `self.graph.neighbors(node)`: the adjacency produced by the edge list;
an edge contributes its other endpoint when one endpoint is `u`. -/
def Graph.neighbors (G : Graph) (u : Nat) : List Nat :=
  G.edges.filterMap (fun e =>
    if e.1 = u then some e.2 else if e.2 = u then some e.1 else none)

/-- `self.graph.degree(node)`: number of incident edges (simple graph). -/
def Graph.degree (G : Graph) (v : Nat) : Nat := (G.neighbors v).length

/-- Adjacency relation underlying the traversal: `v` occurs in `u`'s
neighbor list. -/
def Adj (G : Graph) (u v : Nat) : Prop := v ∈ G.neighbors u

instance (G : Graph) (u v : Nat) : Decidable (Adj G u v) := by
  unfold Adj; infer_instance

/-- A walk of a given hop length from `s`, following the neighbor relation.
`HasWalk G s v k` states that `v` is reachable from `s` in exactly `k` hops. -/
inductive HasWalk (G : Graph) (s : Nat) : Nat → Nat → Prop
  | refl : HasWalk G s s 0
  | step {u v k} : HasWalk G s u k → Adj G u v → HasWalk G s v (k + 1)

/-- The per-source BFS bookkeeping of `multi_source_bfs`: `visited` set,
`parent` pointers (`none` marks the source), `level` (hop distance), plus the
FIFO `queue` that drives the loop. -/
structure BFSState where
  visited : List Nat
  queue : List Nat
  parent : List (Nat × Option Nat)
  level : List (Nat × Nat)
deriving DecidableEq, Repr

/-- `level[node]` as read by the inner loop (always present for enqueued
nodes; the default is never reached under the loop invariant). -/
def lvOf (st : BFSState) (x : Nat) : Nat := (alookup x st.level).getD 0

/-- The inner `for neighbor in self.graph.neighbors(node)` loop: each
not-yet-visited neighbor is marked visited, appended to the queue, and given
its parent pointer and level `level[node] + 1` (`lvNode` is `level[node]`,
read before the loop and unchanged during it since only fresh keys are
added). -/
def processNeighbors (node lvNode : Nat) : List Nat → BFSState → BFSState
  | [], st => st
  | nbr :: rest, st =>
    if nbr ∈ st.visited then
      processNeighbors node lvNode rest st
    else
      processNeighbors node lvNode rest
        { visited := nbr :: st.visited
          queue := st.queue ++ [nbr]
          parent := (nbr, some node) :: st.parent
          level := (nbr, lvNode + 1) :: st.level }

/-- Finite superset of every identifier BFS can ever visit: all declared
nodes plus all edge endpoints.  Used to bound the number of loop
iterations. -/
def boundList (G : Graph) : List Nat :=
  G.nodes ++ G.edges.flatMap (fun e => [e.1, e.2])

/-- Fuel that dominates the BFS loop measure `2·|unvisited| + |queue|`
for any run started from a single source, so the loop always drains its
queue within this many iterations. -/
def bfsFuel (G : Graph) : Nat := 2 * (boundList G).length + 1

/-- The `while queue:` loop of `multi_source_bfs`: pop the head, process its
neighbors.  The Python loop terminates because each iteration pops one node
and nodes are enqueued at most once; here the same fact is expressed with a
fuel argument that the invariant proofs show is never exhausted. -/
def bfsLoop (G : Graph) : Nat → BFSState → BFSState
  | 0, st => st
  | fuel + 1, st =>
    match st.queue with
    | [] => st
    | node :: rest =>
      bfsLoop G fuel
        (processNeighbors node (lvOf st node) (G.neighbors node)
          { st with queue := rest })

/-- The per-source result dictionary stored in `self.bfs_paths[source]`. -/
structure BFSResult where
  visited : List Nat
  parent : List (Nat × Option Nat)
  level : List (Nat × Nat)
  reachable_count : Nat
deriving DecidableEq, Repr

/-- One source's traversal: initialize `visited = {source}`,
`queue = [source]`, `parent[source] = None`, `level[source] = 0`, run the
BFS loop, and package the result. -/
def bfs_from (G : Graph) (s : Nat) : BFSResult :=
  let fin := bfsLoop G (bfsFuel G)
    { visited := [s], queue := [s], parent := [(s, none)], level := [(s, 0)] }
  { visited := fin.visited, parent := fin.parent, level := fin.level
    reachable_count := fin.visited.length }

/-- `multi_source_bfs`: sources absent from the graph are skipped with a
warning; each present source gets a fresh BFS result.  The Python method
stores results in a dict keyed by source; a duplicated source would simply
recompute the same deterministic result, so the association list with
first-match lookup is observationally the dict. -/
def multi_source_bfs (G : Graph) : List Nat → List (Nat × BFSResult)
  | [] => []
  | s :: rest =>
    if s ∈ G.nodes then (s, bfs_from G s) :: multi_source_bfs G rest
    else multi_source_bfs G rest

/-- The explicit analyzer object: `self.graph` and `self.bfs_paths`. -/
structure AnalyzerState where
  graph : Graph
  bfs_paths : List (Nat × BFSResult)
deriving DecidableEq, Repr

/-- The `multi_source_bfs` method as a state transformer: it begins with
`self.bfs_paths = {}` and rebuilds the dict from scratch, so the previous
contents are discarded unconditionally. -/
def run_multi_source_bfs (st : AnalyzerState) (sources : List Nat) : AnalyzerState :=
  { st with bfs_paths := multi_source_bfs st.graph sources }

/-- The `while current is not None` backtracking loop of `get_path`:
follow parent pointers from `target`, collecting nodes.  The Python loop
carries no explicit bound; the fuel passed by `get_path` exceeds the longest
possible parent chain of a BFS result, so the translation agrees with the
Python loop on every state `multi_source_bfs` can produce. -/
def followParents (parent : List (Nat × Option Nat)) : Nat → Nat → List Nat
  | 0, _ => []
  | fuel + 1, current =>
    current ::
      (match alookup current parent with
       | some (some p) => followParents parent fuel p
       | _ => [])

/-- `get_path(source, target)`: `None` when BFS was not run from `source`
or `target` is not in that source's visited set; otherwise the reversed
parent chain from `target`. -/
def get_path (st : AnalyzerState) (source target : Nat) : Option (List Nat) :=
  match alookup source st.bfs_paths with
  | none => none
  | some info =>
    if target ∈ info.visited then
      some ((followParents info.parent (info.parent.length + 1) target).reverse)
    else
      none

/-! ## Structural analysis (`analyze_graph`) -/

/-- Modelled from the library semantics of `nx.connected_components`:
the maximal connected node sets, obtained here by scanning the node list
and collecting the BFS-visited set of each node not already covered.
Each component is listed once, in first-node order. -/
def componentsList (G : Graph) : List (List Nat) :=
  G.nodes.foldl
    (fun acc v => if v ∈ acc.flatten then acc else acc ++ [(bfs_from G v).visited])
    []

/-- Connectivity test on a graph already known non-empty (every node is
BFS-reachable from the first node), the computation `nx.is_connected`
performs after its null-graph guard. -/
def connectedB (G : Graph) : Bool :=
  match G.nodes with
  | [] => true
  | v :: _ => decide (∀ u ∈ G.nodes, u ∈ (bfs_from G v).visited)

/-- Modelled from the library semantics of `nx.is_connected`: raises
`NetworkXPointlessConcept` on the null graph, otherwise decides whether
every node is reachable from an arbitrary first node. -/
def is_connected (G : Graph) : Except String Bool :=
  match G.nodes with
  | [] => .error "Connectivity is undefined for the null graph."
  | _ :: _ => .ok (connectedB G)

/-- Sum over all ordered pairs of the hop distance, computed from the
per-source BFS levels (each source's level map covers the whole graph in
the connected case; the diagonal contributes 0). -/
def pairDistSum (G : Graph) : Nat :=
  (G.nodes.map (fun s => ((bfs_from G s).level.map (fun p => p.2)).sum)).sum

/-- Modelled from the library semantics of `nx.average_shortest_path_length`:
raises on the null graph, returns 0 for the single-node graph, raises
`NetworkXError` when the graph is disconnected, and otherwise returns the
mean hop distance over ordered pairs of distinct nodes. -/
def average_shortest_path_length (G : Graph) : Except String ℚ :=
  if G.nodes.length = 0 then
    .error "the null graph has no paths, thus there is no average shortest path length"
  else if G.nodes.length = 1 then .ok 0
  else if connectedB G then
    .ok ((pairDistSum G : ℚ) / ((G.nodes.length : ℚ) * ((G.nodes.length : ℚ) - 1)))
  else .error "Graph is not connected."

/-- Modelled from the library semantics of `nx.simple_cycles` applied to
`self.graph.to_directed()`: converting an undirected graph to a directed one
puts both orientations of every edge in, so every undirected edge `(u, v)`
is the elementary circuit `u → v → u`, and the generator yields at least one
cycle exactly when the graph has at least one edge.  `analyze_graph` sets
`has_cycle` to true as soon as one cycle is yielded (its `except` fallback,
the per-component edge/node count test, is unreachable because
`nx.simple_cycles` does not raise on a digraph), so the computed flag is
exactly edge-nonemptiness. -/
def has_cycle_flag (G : Graph) : Bool := !G.edges.isEmpty

/-- The cycle criterion as worded by the specification (for comparison with
the code's flag): some connected component has at least as many edges as
nodes. -/
def specCycleFlag (G : Graph) : Bool :=
  (componentsList G).any (fun comp =>
    comp.length ≤ (G.edges.filter (fun e => e.1 ∈ comp ∧ e.2 ∈ comp)).length)

/-- Python's `max(components, key=len)`: first list of maximal length. -/
def maxByLen (l : List (List Nat)) : List Nat :=
  l.foldl (fun best c => if best.length < c.length then c else best) (l.headD [])

/-- `self.graph.subgraph(component)` restricted to our record: the nodes of
the component and the edges with both endpoints inside it. -/
def subgraphOn (G : Graph) (comp : List Nat) : Graph :=
  { nodes := G.nodes.filter (fun v => v ∈ comp)
    edges := G.edges.filter (fun e => e.1 ∈ comp ∧ e.2 ∈ comp)
    attrs := G.attrs.filter (fun p => p.1 ∈ comp) }

/-- The dictionary `analyze_graph` stores in `self.analysis_results`
(the bounded `sample_cycles` diagnostic list is omitted: no claim concerns
its contents).  Degree statistics `(min, max, average)` are computed under
the same `if degrees:` guard as in the code. -/
structure AnalysisResult where
  n_nodes : Nat
  n_edges : Nat
  n_components : Nat
  components : List (List Nat)
  isolated_nodes : List Nat
  has_cycle : Bool
  degrees : List (Nat × Nat)
  degreeStats : Option (Nat × Nat × ℚ)
  density : ℚ
  avg_shortest_path : Option ℚ
deriving DecidableEq, Repr

/-- `analyze_graph`: components, isolated nodes, cycle flag, density with its
`n ≤ 1` fallback, then the average-shortest-path section.  The connected
branch guards the library call with `try/except` (a failure leaves the value
`None`); the disconnected branch prints «Not applicable», then — when the
largest component has more than one node — assigns the largest-component
average to the *same* `avg_shortest_path` variable that is stored in the
results dictionary.  The unguarded `nx.is_connected` call raises on the
0-node graph, which this translation propagates as an error. -/
def analyze_graph (G : Graph) : Except String AnalysisResult :=
  let n_nodes := G.nodes.length
  let n_edges := G.edges.length
  let components := componentsList G
  let isolated := G.nodes.filter (fun v => G.degree v = 0)
  let density : ℚ :=
    if n_nodes ≤ 1 then 0
    else (n_edges : ℚ) / ((n_nodes : ℚ) * ((n_nodes : ℚ) - 1) / 2)
  let degrees := G.nodes.map (fun v => (v, G.degree v))
  let degreeStats : Option (Nat × Nat × ℚ) :=
    match degrees.map (fun p => p.2) with
    | [] => none
    | d :: rest =>
      some (rest.foldl min d, rest.foldl max d,
        ((d :: rest).sum : ℚ) / (((d :: rest).length : ℚ)))
  match is_connected G with
  | .error e => .error e
  | .ok conn =>
    let avg : Option ℚ :=
      if conn then
        match average_shortest_path_length G with
        | .ok v => some v
        | .error _ => none
      else
        let largest := maxByLen components
        if 1 < largest.length then
          match average_shortest_path_length (subgraphOn G largest) with
          | .ok v => some v
          | .error _ => none
        else none
    .ok { n_nodes := n_nodes, n_edges := n_edges
          n_components := components.length, components := components
          isolated_nodes := isolated, has_cycle := has_cycle_flag G
          degrees := degrees, degreeStats := degreeStats
          density := density, avg_shortest_path := avg }

/-! ## Saving (`save_graph`) -/

/-- The graph handed to `nx.write_gml`: string node labels with stringified
attribute dictionaries, and string edge endpoints. -/
structure StringGraph where
  nodes : List (String × List (String × String))
  edges : List (String × String)
deriving DecidableEq, Repr

/-- `node_to_component.get(node, -1)`: index of the component containing the
node, with the dictionary's `-1` default. -/
def componentIdOf (comps : List (List Nat)) (v : Nat) : Int :=
  match comps.enum.find? (fun p => v ∈ p.2) with
  | some p => (p.1 : Int)
  | none => -1

/-- The BFS attributes `save_graph` attaches to one node: for each stored
source, `distance_from_<source>` when the node has a level entry, and
`parent_from_<source>` when it has a non-`None` parent entry. -/
def bfsAttrsFor (bfs_paths : List (Nat × BFSResult)) (v : Nat) : List (String × String) :=
  bfs_paths.flatMap (fun sp =>
    (match alookup v sp.2.level with
     | some d => [("distance_from_" ++ toString sp.1, toString d)]
     | none => []) ++
    (match alookup v sp.2.parent with
     | some (some p) => [("parent_from_" ++ toString sp.1, toString p)]
     | _ => []))

/-- `save_graph`: refuses an empty graph, otherwise builds `output_graph`
as a copy of `self.graph` enriched with component ids and BFS attributes,
stringifies it into a fresh `string_graph`, and writes that out
(`nx.write_gml` itself is external I/O; its argument is the returned
value).  The analyzer's own fields are only read, which the state-passing
translation renders by returning the input state. -/
def save_graph (st : AnalyzerState) : Except String StringGraph × AnalyzerState :=
  if st.graph.nodes.length = 0 then (.error "Cannot save empty graph", st)
  else
    let comps := componentsList st.graph
    let outNodes := st.graph.nodes.map (fun v =>
      (toString v,
        (alookup v st.graph.attrs).getD [] ++
          [("component_id", toString (componentIdOf comps v))] ++
          bfsAttrsFor st.bfs_paths v))
    (.ok { nodes := outNodes
           edges := st.graph.edges.map (fun e => (toString e.1, toString e.2)) },
     st)

/-! ## Erdős–Rényi generation (`create_erdos_renyi_graph`) -/

/-- The pairs `(i, j)`, `i < j < n`, in the order the generation loops
enumerate them. -/
def allPairs (n : Nat) : List (Nat × Nat) :=
  (List.range n).flatMap (fun i =>
    (List.range' (i + 1) (n - (i + 1))).map (fun j => (i, j)))

/-- The edge-sampling loops: one `random.random()` draw per candidate pair,
consumed in order; the pair is kept when the draw is below `p`.  The draws
are an explicit stream `rand`, making the randomized code a deterministic
function of its random source. -/
noncomputable def pickEdges (p : ℝ) (rand : Nat → ℝ) : Nat → List (Nat × Nat) → List (Nat × Nat)
  | _, [] => []
  | k, e :: rest =>
    if rand k < p then e :: pickEdges p rand (k + 1) rest
    else pickEdges p rand (k + 1) rest

/-- The graph built once the edge probability is fixed: nodes `0 .. n-1`
and the sampled pairs. -/
noncomputable def buildER (n : Nat) (p : ℝ) (rand : Nat → ℝ) : Graph :=
  { nodes := List.range n
    edges := pickEdges p rand 0 (allPairs n)
    attrs := [] }

/-- `create_erdos_renyi_graph(n, c)`: rejects `n ≤ 0`, computes
`p = (c·ln n)/n` (float arithmetic modelled exactly over ℝ), rejects a
negative `p`, clamps `p > 1` to `1.0` with a console warning (the returned
flag records whether the warning fired), and samples each pair
independently. -/
noncomputable def create_erdos_renyi_graph (n : Int) (c : ℝ) (rand : Nat → ℝ) :
    Except String (Graph × Bool) :=
  if n ≤ 0 then .error "Number of nodes must be positive"
  else
    let p := c * Real.log (n : ℝ) / (n : ℝ)
    if p < 0 then .error "Edge probability cannot be negative"
    else if 1 < p then .ok (buildER n.toNat 1 rand, true)
    else .ok (buildER n.toNat p rand, false)

/-! ## Auxiliary definitions for the proofs -/

/-- The neighbors freshly discovered while scanning `nbrs` with visited set
`vis`, in scan order. -/
def newNodes (vis : List Nat) : List Nat → List Nat
  | [] => []
  | nbr :: rest =>
    if nbr ∈ vis then newNodes vis rest else nbr :: newNodes (nbr :: vis) rest

/-- Invariant of the `while queue:` loop of `multi_source_bfs`, for the run
started at source `s`: the source data is in place; visited/queue carry no
duplicates; the queue holds only visited nodes; the `level` and `parent`
dictionaries are keyed exactly by the visited set; every visited non-source
node has a visited BFS parent one level below it; nodes already dequeued
have all their neighbors visited at most one level higher; all visited
levels are at most one above any queued node's level; queued levels are
non-decreasing; and levels (and the parent dictionary size) are bounded by
the visited count. -/
structure BFSInv (G : Graph) (s : Nat) (st : BFSState) : Prop where
  src_vis : s ∈ st.visited
  src_level : alookup s st.level = some 0
  src_parent : alookup s st.parent = some none
  vis_nodup : st.visited.Nodup
  q_nodup : st.queue.Nodup
  q_sub : ∀ x ∈ st.queue, x ∈ st.visited
  level_keys : ∀ x, (alookup x st.level).isSome ↔ x ∈ st.visited
  parent_keys : ∀ x, (alookup x st.parent).isSome ↔ x ∈ st.visited
  level_nodup : (st.level.map Prod.fst).Nodup
  parent_edge : ∀ x ∈ st.visited, x ≠ s →
    ∃ u, alookup x st.parent = some (some u) ∧ u ∈ st.visited ∧ Adj G u x ∧
      lvOf st x = lvOf st u + 1
  processed_closed : ∀ u ∈ st.visited, u ∉ st.queue →
    ∀ w ∈ G.neighbors u, w ∈ st.visited ∧ lvOf st w ≤ lvOf st u + 1
  vis_le_queue : ∀ v ∈ st.visited, ∀ u ∈ st.queue, lvOf st v ≤ lvOf st u + 1
  q_sorted : st.queue.Pairwise (fun a b => lvOf st a ≤ lvOf st b)
  lv_lt_len : ∀ v ∈ st.visited, lvOf st v < st.visited.length
  parent_len : st.parent.length = st.visited.length

/-- Number of potential identifiers not yet visited. -/
def unvisCount (G : Graph) (vis : List Nat) : Nat :=
  ((boundList G).filter (fun x => decide (x ∉ vis))).length

/-- The loop measure: each iteration pops one queued node and trades queue
growth against newly visited nodes two-for-one. -/
def bfsMeasure (G : Graph) (st : BFSState) : Nat :=
  2 * unvisCount G st.visited + st.queue.length

/-- The initial per-source state of the BFS loop. -/
def bfsInit (s : Nat) : BFSState := ⟨[s], [s], [(s, none)], [(s, 0)]⟩

/-- The state in which the BFS loop of `bfs_from` terminates. -/
def bfsFinal (G : Graph) (s : Nat) : BFSState := bfsLoop G (bfsFuel G) (bfsInit s)

/-- The value `max(level.values())` of a BFS result. -/
def maxLevelOf (res : BFSResult) : Nat := (res.level.map (fun p => p.2)).foldl max 0

deriving instance DecidableEq for Except

/-- A 3-node path graph, used as the concrete test input of the witnesses. -/
def path3 : Graph := ⟨[0, 1, 2], [(0, 1), (1, 2)], []⟩

/-- A constant random stream for exercising the generator theorems. -/
def randZero : Nat → ℝ := fun _ => 0

/-- The BFS result of `bfs_from path3 0`, spelled out. -/
def path3Res : BFSResult :=
  ⟨[2, 1, 0], [(2, some 1), (1, some 0), (0, none)], [(2, 2), (1, 1), (0, 0)], 3⟩

/-- A one-node analyzer state carrying an original node attribute, used to
exercise `save_graph`. -/
def saveState : AnalyzerState :=
  ⟨⟨[0], [], [(0, [("color", "red")])]⟩, []⟩

/-- The string graph `save_graph` produces for `saveState`. -/
def saveStateOut : StringGraph :=
  ⟨[("0", [("color", "red"), ("component_id", "0")])], []⟩

/-! ## Association-list lemmas -/

theorem alookup_append {β : Type} (k : Nat) (l₁ l₂ : List (Nat × β)) :
    alookup k (l₁ ++ l₂) =
      match alookup k l₁ with
      | some v => some v
      | none => alookup k l₂ := by
  induction l₁ with
  | nil => simp [alookup]
  | cons p rest ih =>
    obtain ⟨k', v⟩ := p
    by_cases h : k' = k <;> simp [alookup, h, ih]

theorem alookup_map_const {β : Type} (k : Nat) (l : List Nat) (c : β) :
    alookup k (l.map (fun x => (x, c))) = if k ∈ l then some c else none := by
  induction l with
  | nil => simp [alookup]
  | cons x rest ih =>
    by_cases h : x = k
    · subst h; simp [alookup]
    · simp [alookup, h, ih, Ne.symm h]

theorem mem_of_alookup_eq_some {β : Type} {k : Nat} {v : β} {l : List (Nat × β)}
    (h : alookup k l = some v) : (k, v) ∈ l := by
  induction l with
  | nil => simp [alookup] at h
  | cons p rest ih =>
    obtain ⟨k', v'⟩ := p
    by_cases hk : k' = k
    · subst hk
      simp [alookup] at h
      simp [h]
    · simp [alookup, hk] at h
      exact List.mem_cons_of_mem _ (ih h)

theorem alookup_isSome_iff_mem_keys {β : Type} (k : Nat) (l : List (Nat × β)) :
    (alookup k l).isSome ↔ k ∈ l.map Prod.fst := by
  induction l with
  | nil => simp [alookup]
  | cons p rest ih =>
    obtain ⟨k', v'⟩ := p
    by_cases hk : k' = k
    · subst hk; simp [alookup]
    · simp [alookup, hk, ih, Ne.symm hk]

theorem alookup_of_mem_of_keys_nodup {β : Type} {k : Nat} {v : β} {l : List (Nat × β)}
    (hmem : (k, v) ∈ l) (hnd : (l.map Prod.fst).Nodup) : alookup k l = some v := by
  induction l with
  | nil => simp at hmem
  | cons p rest ih =>
    obtain ⟨k', v'⟩ := p
    simp only [List.map_cons, List.nodup_cons] at hnd
    rcases List.mem_cons.mp hmem with h | h
    · injection h with h1 h2
      subst h1; subst h2
      simp [alookup]
    · by_cases hk : k' = k
      · subst hk
        exact absurd (List.mem_map_of_mem Prod.fst h) hnd.1
      · simp [alookup, hk]
        exact ih h hnd.2

/-! ## Characterizing the inner neighbor loop -/

theorem newNodes_sub {vis : List Nat} :
    ∀ {nbrs x}, x ∈ newNodes vis nbrs → x ∈ nbrs ∧ x ∉ vis := by
  intro nbrs
  induction nbrs generalizing vis with
  | nil => intro x hx; simp [newNodes] at hx
  | cons nbr rest ih =>
    intro x hx
    by_cases h : nbr ∈ vis
    · simp only [newNodes, if_pos h] at hx
      have := ih hx
      exact ⟨List.mem_cons_of_mem _ this.1, this.2⟩
    · simp only [newNodes, if_neg h] at hx
      rcases List.mem_cons.mp hx with h1 | h1
      · subst h1; exact ⟨List.mem_cons_self _ _, h⟩
      · have := ih h1
        refine ⟨List.mem_cons_of_mem _ this.1, fun hv => this.2 ?_⟩
        exact List.mem_cons_of_mem _ hv

theorem newNodes_mem {vis : List Nat} :
    ∀ {nbrs x}, x ∈ nbrs → x ∉ vis → x ∈ newNodes vis nbrs := by
  intro nbrs
  induction nbrs generalizing vis with
  | nil => intro x hx; simp at hx
  | cons nbr rest ih =>
    intro x hx hnv
    by_cases h : nbr ∈ vis
    · have hx' : x ∈ rest := by
        rcases List.mem_cons.mp hx with h1 | h1
        · subst h1; exact absurd h hnv
        · exact h1
      simp only [newNodes, if_pos h]
      exact ih hx' hnv
    · simp only [newNodes, if_neg h]
      by_cases hxe : x = nbr
      · subst hxe; exact List.mem_cons_self _ _
      · have hx' : x ∈ rest := by
          rcases List.mem_cons.mp hx with h1 | h1
          · exact absurd h1 hxe
          · exact h1
        refine List.mem_cons_of_mem _ (ih hx' ?_)
        simp [hxe, hnv]

theorem newNodes_nodup {vis : List Nat} : ∀ {nbrs}, (newNodes vis nbrs).Nodup := by
  intro nbrs
  induction nbrs generalizing vis with
  | nil => simp [newNodes]
  | cons nbr rest ih =>
    by_cases h : nbr ∈ vis
    · simpa [newNodes, if_pos h] using ih
    · simp only [newNodes, if_neg h]
      refine List.nodup_cons.mpr ⟨fun hmem => ?_, ih⟩
      exact (newNodes_sub hmem).2 (List.mem_cons_self _ _)

theorem processNeighbors_visited (node lvN : Nat) :
    ∀ (nbrs : List Nat) (st : BFSState),
      (processNeighbors node lvN nbrs st).visited =
        (newNodes st.visited nbrs).reverse ++ st.visited := by
  intro nbrs
  induction nbrs with
  | nil => intro st; simp [processNeighbors, newNodes]
  | cons nbr rest ih =>
    intro st
    by_cases h : nbr ∈ st.visited
    · simp [processNeighbors, newNodes, h, ih]
    · simp [processNeighbors, newNodes, h, ih]

theorem processNeighbors_queue (node lvN : Nat) :
    ∀ (nbrs : List Nat) (st : BFSState),
      (processNeighbors node lvN nbrs st).queue =
        st.queue ++ newNodes st.visited nbrs := by
  intro nbrs
  induction nbrs with
  | nil => intro st; simp [processNeighbors, newNodes]
  | cons nbr rest ih =>
    intro st
    by_cases h : nbr ∈ st.visited
    · simp [processNeighbors, newNodes, h, ih]
    · simp [processNeighbors, newNodes, h, ih]

theorem processNeighbors_parent (node lvN : Nat) :
    ∀ (nbrs : List Nat) (st : BFSState),
      (processNeighbors node lvN nbrs st).parent =
        (newNodes st.visited nbrs).reverse.map (fun x => (x, some node)) ++ st.parent := by
  intro nbrs
  induction nbrs with
  | nil => intro st; simp [processNeighbors, newNodes]
  | cons nbr rest ih =>
    intro st
    by_cases h : nbr ∈ st.visited
    · simp [processNeighbors, newNodes, h, ih]
    · simp [processNeighbors, newNodes, h, ih]

theorem processNeighbors_level (node lvN : Nat) :
    ∀ (nbrs : List Nat) (st : BFSState),
      (processNeighbors node lvN nbrs st).level =
        (newNodes st.visited nbrs).reverse.map (fun x => (x, lvN + 1)) ++ st.level := by
  intro nbrs
  induction nbrs with
  | nil => intro st; simp [processNeighbors, newNodes]
  | cons nbr rest ih =>
    intro st
    by_cases h : nbr ∈ st.visited
    · simp [processNeighbors, newNodes, h, ih]
    · simp [processNeighbors, newNodes, h, ih]

theorem alookup_prepend_const {β : Type} (k : Nat) (news : List Nat) (c : β)
    (l : List (Nat × β)) :
    alookup k (news.map (fun x => (x, c)) ++ l) =
      if k ∈ news then some c else alookup k l := by
  rw [alookup_append, alookup_map_const]
  by_cases h : k ∈ news <;> simp [h]

theorem pairwise_of_forall_mem {α : Type} {R : α → α → Prop} :
    ∀ {l : List α}, (∀ a ∈ l, ∀ b ∈ l, R a b) → l.Pairwise R := by
  intro l
  induction l with
  | nil => intro _; exact List.Pairwise.nil
  | cons a rest ih =>
    intro h
    refine List.Pairwise.cons (fun b hb => ?_) (ih fun x hx y hy => ?_)
    · exact h a (List.mem_cons_self _ _) b (List.mem_cons_of_mem _ hb)
    · exact h x (List.mem_cons_of_mem _ hx) y (List.mem_cons_of_mem _ hy)

/-! ## The BFS loop invariant -/

theorem bfsInv_init (G : Graph) (s : Nat) :
    BFSInv G s ⟨[s], [s], [(s, none)], [(s, 0)]⟩ := by
  refine ⟨?_, ?_, ?_, ?_, ?_, ?_, ?_, ?_, ?_, ?_, ?_, ?_, ?_, ?_, ?_⟩
  · exact List.mem_singleton.mpr rfl
  · simp [alookup]
  · simp [alookup]
  · simp
  · simp
  · intro x hx; exact hx
  · intro x
    by_cases h : x = s
    · subst h; simp [alookup]
    · simp [alookup, Ne.symm h, h]
  · intro x
    by_cases h : x = s
    · subst h; simp [alookup]
    · simp [alookup, Ne.symm h, h]
  · simp
  · intro x hx hxs
    exact absurd (List.mem_singleton.mp hx) hxs
  · intro u hu huq
    exact absurd hu huq
  · intro v hv u hu
    have hv' := List.mem_singleton.mp hv
    subst hv'
    simp [lvOf, alookup]
  · simp
  · intro v hv
    have hv' := List.mem_singleton.mp hv
    subst hv'
    simp [lvOf, alookup]
  · simp

theorem bfsStep_inv {G : Graph} {s : Nat} {st : BFSState} {node : Nat}
    {rest : List Nat} (inv : BFSInv G s st) (hq : st.queue = node :: rest) :
    BFSInv G s
      (processNeighbors node (lvOf st node) (G.neighbors node)
        { st with queue := rest }) := by
  set nbrs := G.neighbors node with hnbrs
  set lvN := lvOf st node with hlvN
  set news := newNodes st.visited nbrs with hnews
  set st' := processNeighbors node lvN nbrs { st with queue := rest } with hst'
  have hvis : st'.visited = news.reverse ++ st.visited :=
    processNeighbors_visited node lvN nbrs { st with queue := rest }
  have hque : st'.queue = rest ++ news :=
    processNeighbors_queue node lvN nbrs { st with queue := rest }
  have hpar : st'.parent = news.reverse.map (fun x => (x, some node)) ++ st.parent :=
    processNeighbors_parent node lvN nbrs { st with queue := rest }
  have hlev : st'.level = news.reverse.map (fun x => (x, lvN + 1)) ++ st.level :=
    processNeighbors_level node lvN nbrs { st with queue := rest }
  have hmem_vis : ∀ x, x ∈ st'.visited ↔ x ∈ news ∨ x ∈ st.visited := by
    intro x; rw [hvis]; simp [List.mem_append, List.mem_reverse]
  have hnews_not_vis : ∀ x ∈ news, x ∉ st.visited := fun x hx => (newNodes_sub hx).2
  have hnews_nbrs : ∀ x ∈ news, x ∈ nbrs := fun x hx => (newNodes_sub hx).1
  have hnode_q : node ∈ st.queue := by rw [hq]; exact List.mem_cons_self _ _
  have hnode_vis : node ∈ st.visited := inv.q_sub node hnode_q
  have hrest_q : ∀ x ∈ rest, x ∈ st.queue := by
    intro x hx; rw [hq]; exact List.mem_cons_of_mem _ hx
  have hrest_sub : ∀ x ∈ rest, x ∈ st.visited := fun x hx => inv.q_sub x (hrest_q x hx)
  have hvis_not_news : ∀ x ∈ st.visited, x ∉ news := fun x hx h => hnews_not_vis x h hx
  have hlev_lookup : ∀ x, alookup x st'.level =
      if x ∈ news then some (lvN + 1) else alookup x st.level := by
    intro x
    rw [hlev, alookup_prepend_const]
    simp [List.mem_reverse]
  have hpar_lookup : ∀ x, alookup x st'.parent =
      if x ∈ news then some (some node) else alookup x st.parent := by
    intro x
    rw [hpar, alookup_prepend_const]
    simp [List.mem_reverse]
  have hlv' : ∀ x, lvOf st' x = if x ∈ news then lvN + 1 else lvOf st x := by
    intro x
    unfold lvOf
    rw [hlev_lookup x]
    by_cases h : x ∈ news <;> simp [h, lvOf]
  have hlv_old : ∀ x ∈ st.visited, lvOf st' x = lvOf st x := by
    intro x hx
    rw [hlv' x, if_neg (hvis_not_news x hx)]
  have hlv_new : ∀ x ∈ news, lvOf st' x = lvN + 1 := by
    intro x hx
    rw [hlv' x, if_pos hx]
  have hlv_node : lvOf st' node = lvN := by rw [hlv_old node hnode_vis]
  have hrest_sorted : ∀ u ∈ rest, lvN ≤ lvOf st u := by
    have hp := inv.q_sorted
    rw [hq] at hp
    exact (List.pairwise_cons.mp hp).1
  refine ⟨?_, ?_, ?_, ?_, ?_, ?_, ?_, ?_, ?_, ?_, ?_, ?_, ?_, ?_, ?_⟩
  · exact (hmem_vis s).mpr (Or.inr inv.src_vis)
  · rw [hlev_lookup s, if_neg (hvis_not_news s inv.src_vis)]
    exact inv.src_level
  · rw [hpar_lookup s, if_neg (hvis_not_news s inv.src_vis)]
    exact inv.src_parent
  · rw [hvis]
    exact List.nodup_append.mpr
      ⟨List.nodup_reverse.mpr newNodes_nodup, inv.vis_nodup,
        fun a ha hav => hnews_not_vis a (List.mem_reverse.mp ha) hav⟩
  · rw [hque]
    have hrn : rest.Nodup := by
      have := inv.q_nodup
      rw [hq] at this
      exact this.of_cons
    exact List.nodup_append.mpr
      ⟨hrn, newNodes_nodup, fun a ha han => hnews_not_vis a han (hrest_sub a ha)⟩
  · intro x hx
    rw [hque] at hx
    rcases List.mem_append.mp hx with h | h
    · exact (hmem_vis x).mpr (Or.inr (hrest_sub x h))
    · exact (hmem_vis x).mpr (Or.inl h)
  · intro x
    rw [hlev_lookup x, hmem_vis x]
    by_cases h : x ∈ news
    · simp [h]
    · simp [h, inv.level_keys x]
  · intro x
    rw [hpar_lookup x, hmem_vis x]
    by_cases h : x ∈ news
    · simp [h]
    · simp [h, inv.parent_keys x]
  · rw [hlev]
    rw [List.map_append, List.map_map]
    have : (Prod.fst ∘ fun x => (x, lvN + 1)) = fun x : Nat => x := rfl
    rw [this, List.map_id']
    refine List.nodup_append.mpr
      ⟨List.nodup_reverse.mpr newNodes_nodup, inv.level_nodup, ?_⟩
    intro a ha hak
    have ha' : a ∈ news := List.mem_reverse.mp ha
    have : a ∈ st.visited :=
      (inv.level_keys a).mp ((alookup_isSome_iff_mem_keys a st.level).mpr hak)
    exact hnews_not_vis a ha' this
  · intro x hx hxs
    rcases (hmem_vis x).mp hx with h | h
    · refine ⟨node, ?_, (hmem_vis node).mpr (Or.inr hnode_vis), hnews_nbrs x h, ?_⟩
      · rw [hpar_lookup x, if_pos h]
      · rw [hlv_new x h, hlv_node]
    · obtain ⟨u, hu1, hu2, hu3, hu4⟩ := inv.parent_edge x h hxs
      refine ⟨u, ?_, (hmem_vis u).mpr (Or.inr hu2), hu3, ?_⟩
      · rw [hpar_lookup x, if_neg (hvis_not_news x h)]
        exact hu1
      · rw [hlv_old x h, hlv_old u hu2]
        exact hu4
  · intro u hu huq w hw
    rw [hque] at huq
    have hur : u ∉ rest := fun h => huq (List.mem_append.mpr (Or.inl h))
    have hun : u ∉ news := fun h => huq (List.mem_append.mpr (Or.inr h))
    rcases (hmem_vis u).mp hu with h | h
    · exact absurd h hun
    · by_cases hune : u = node
      · subst hune
        by_cases hwv : w ∈ st.visited
        · refine ⟨(hmem_vis w).mpr (Or.inr hwv), ?_⟩
          rw [hlv_old w hwv, hlv_node]
          exact inv.vis_le_queue w hwv u hnode_q
        · have hwn : w ∈ news := newNodes_mem hw hwv
          refine ⟨(hmem_vis w).mpr (Or.inl hwn), ?_⟩
          rw [hlv_new w hwn, hlv_node]
      · have huq' : u ∉ st.queue := by
          rw [hq]
          intro hc
          rcases List.mem_cons.mp hc with hc | hc
          · exact hune hc
          · exact hur hc
        obtain ⟨hw1, hw2⟩ := inv.processed_closed u h huq' w hw
        refine ⟨(hmem_vis w).mpr (Or.inr hw1), ?_⟩
        rw [hlv_old w hw1, hlv_old u h]
        exact hw2
  · intro v hv u hu
    rw [hque] at hu
    rcases List.mem_append.mp hu with h | h
    · have hu_vis := hrest_sub u h
      rw [hlv_old u hu_vis]
      rcases (hmem_vis v).mp hv with h' | h'
      · rw [hlv_new v h']
        have := hrest_sorted u h
        omega
      · rw [hlv_old v h']
        exact inv.vis_le_queue v h' u (hrest_q u h)
    · rw [hlv_new u h]
      rcases (hmem_vis v).mp hv with h' | h'
      · rw [hlv_new v h']
        omega
      · rw [hlv_old v h']
        have := inv.vis_le_queue v h' node hnode_q
        omega
  · rw [hque]
    refine List.pairwise_append.mpr ⟨?_, ?_, ?_⟩
    · have hp := inv.q_sorted
      rw [hq] at hp
      have hp' := (List.pairwise_cons.mp hp).2
      refine hp'.imp_of_mem ?_
      intro a b ha hb hab
      rw [hlv_old a (hrest_sub a ha), hlv_old b (hrest_sub b hb)]
      exact hab
    · refine pairwise_of_forall_mem ?_
      intro a ha b hb
      rw [hlv_new a ha, hlv_new b hb]
    · intro a ha b hb
      rw [hlv_old a (hrest_sub a ha), hlv_new b hb]
      exact inv.vis_le_queue a (hrest_sub a ha) node hnode_q
  · intro v hv
    rw [hvis, List.length_append, List.length_reverse]
    rcases (hmem_vis v).mp hv with h | h
    · rw [hlv_new v h]
      have h1 : lvN < st.visited.length := inv.lv_lt_len node hnode_vis
      have h2 : 0 < news.length := List.length_pos.mpr (List.ne_nil_of_mem h)
      omega
    · rw [hlv_old v h]
      have := inv.lv_lt_len v h
      omega
  · rw [hpar, hvis]
    simp [List.length_append, List.length_map, List.length_reverse, inv.parent_len]

/-! ## Termination of the BFS loop -/

theorem length_filter_mono {l : List Nat} {p q : Nat → Bool}
    (h : ∀ x, q x = true → p x = true) :
    (l.filter q).length ≤ (l.filter p).length := by
  induction l with
  | nil => simp
  | cons b l ih =>
    by_cases hq : q b = true
    · have hp := h b hq
      simp only [List.filter_cons, hq, hp, if_true]
      simpa using ih
    · simp only [List.filter_cons, hq, Bool.false_eq_true, if_false]
      by_cases hp : p b = true
      · simp only [hp, eq_self_iff_true, if_true, List.length_cons]
        omega
      · simp only [hp, Bool.false_eq_true, if_false]
        exact ih

theorem length_filter_lt {a : Nat} (vis : List Nat) :
    ∀ {l : List Nat}, a ∈ l → a ∉ vis →
      (l.filter (fun x => decide (x ∉ a :: vis))).length <
        (l.filter (fun x => decide (x ∉ vis))).length := by
  intro l
  induction l with
  | nil => intro h; simp at h
  | cons b l ih =>
    intro hmem hav
    by_cases hba : b = a
    · subst hba
      have h1 : (decide (b ∉ b :: vis)) = false := by simp
      have h2 : (decide (b ∉ vis)) = true := by simpa using hav
      simp only [List.filter_cons, h1, h2, Bool.false_eq_true, eq_self_iff_true,
        if_false, if_true, List.length_cons]
      have hmono : (l.filter (fun x => decide (x ∉ b :: vis))).length ≤
          (l.filter (fun x => decide (x ∉ vis))).length := by
        refine length_filter_mono ?_
        intro x hx
        simp only [decide_eq_true_eq] at hx ⊢
        intro hc
        exact hx (List.mem_cons_of_mem _ hc)
      omega
    · have hmem' : a ∈ l := by
        rcases List.mem_cons.mp hmem with h | h
        · exact absurd h.symm hba
        · exact h
      have hcond : (decide (b ∉ a :: vis)) = (decide (b ∉ vis)) := by
        apply decide_eq_decide.mpr
        simp [List.mem_cons, hba]
      cases hc : (decide (b ∉ vis)) with
      | true =>
        simp only [List.filter_cons, hcond, hc, eq_self_iff_true, if_true,
          List.length_cons]
        exact Nat.succ_lt_succ (ih hmem' hav)
      | false =>
        simp only [List.filter_cons, hcond, hc, Bool.false_eq_true, if_false]
        exact ih hmem' hav

theorem neighbors_sub_bound (G : Graph) (u : Nat) :
    ∀ x ∈ G.neighbors u, x ∈ boundList G := by
  intro x hx
  unfold Graph.neighbors at hx
  obtain ⟨e, he, hfe⟩ := List.mem_filterMap.mp hx
  unfold boundList
  refine List.mem_append.mpr (Or.inr (List.mem_flatMap.mpr ⟨e, he, ?_⟩))
  by_cases h1 : e.1 = u
  · simp only [h1, if_true, Option.some.injEq] at hfe
    simp [← hfe]
  · by_cases h2 : e.2 = u
    · simp only [h1, h2, if_false, if_true, Option.some.injEq] at hfe
      simp [← hfe]
    · simp [h1, h2] at hfe

theorem processNeighbors_measure (G : Graph) (node lvN : Nat) :
    ∀ (nbrs : List Nat) (st : BFSState), (∀ x ∈ nbrs, x ∈ boundList G) →
      2 * unvisCount G (processNeighbors node lvN nbrs st).visited +
          (processNeighbors node lvN nbrs st).queue.length ≤
        2 * unvisCount G st.visited + st.queue.length := by
  intro nbrs
  induction nbrs with
  | nil => intro st _; simp [processNeighbors]
  | cons nbr rest ih =>
    intro st hb
    by_cases h : nbr ∈ st.visited
    · simp only [processNeighbors, if_pos h]
      exact ih st (fun x hx => hb x (List.mem_cons_of_mem _ hx))
    · simp only [processNeighbors, if_neg h]
      refine le_trans (ih _ (fun x hx => hb x (List.mem_cons_of_mem _ hx))) ?_
      have hlt : unvisCount G (nbr :: st.visited) < unvisCount G st.visited :=
        length_filter_lt st.visited (hb nbr (List.mem_cons_self _ _)) h
      simp only [List.length_append, List.length_cons, List.length_nil]
      omega

theorem bfsLoop_inv (G : Graph) (s : Nat) :
    ∀ (fuel : Nat) (st : BFSState), BFSInv G s st → BFSInv G s (bfsLoop G fuel st) := by
  intro fuel
  induction fuel with
  | zero => intro st h; simpa [bfsLoop] using h
  | succ n ih =>
    intro st h
    cases hq : st.queue with
    | nil => simpa [bfsLoop, hq] using h
    | cons node rest =>
      have hstep := bfsStep_inv h hq
      simpa [bfsLoop, hq] using ih _ hstep

theorem bfsLoop_drains (G : Graph) :
    ∀ (fuel : Nat) (st : BFSState), bfsMeasure G st ≤ fuel →
      (bfsLoop G fuel st).queue = [] := by
  intro fuel
  induction fuel with
  | zero =>
    intro st h
    have hlen : st.queue.length = 0 := by
      unfold bfsMeasure at h
      omega
    simpa [bfsLoop] using List.length_eq_zero.mp hlen
  | succ n ih =>
    intro st h
    cases hq : st.queue with
    | nil => simp [bfsLoop, hq]
    | cons node rest =>
      have hqlen : st.queue.length = rest.length + 1 := by rw [hq]; rfl
      have hstep : bfsMeasure G
          (processNeighbors node (lvOf st node) (G.neighbors node)
            { st with queue := rest }) ≤ n := by
        have h1 := processNeighbors_measure G node (lvOf st node) (G.neighbors node)
          { st with queue := rest } (neighbors_sub_bound G node)
        unfold bfsMeasure at h ⊢
        simp only at h1
        omega
      simpa [bfsLoop, hq] using ih _ hstep

theorem bfsFinal_inv (G : Graph) (s : Nat) : BFSInv G s (bfsFinal G s) :=
  bfsLoop_inv G s (bfsFuel G) (bfsInit s) (bfsInv_init G s)

theorem bfsFinal_queue (G : Graph) (s : Nat) : (bfsFinal G s).queue = [] := by
  apply bfsLoop_drains
  unfold bfsMeasure bfsFuel bfsInit unvisCount
  have := List.length_filter_le (fun x => decide (x ∉ [s])) (boundList G)
  simp only [List.length_cons, List.length_nil]
  omega

theorem lvOf_final_src (G : Graph) (s : Nat) : lvOf (bfsFinal G s) s = 0 := by
  simp [lvOf, (bfsFinal_inv G s).src_level]

/-- Soundness at termination: every node with a walk from `s` is visited,
with recorded level at most the walk length. -/
theorem walk_visited_le (G : Graph) (s : Nat) :
    ∀ {v k}, HasWalk G s v k →
      v ∈ (bfsFinal G s).visited ∧ lvOf (bfsFinal G s) v ≤ k := by
  intro v k h
  induction h with
  | refl => exact ⟨(bfsFinal_inv G s).src_vis, le_of_eq (lvOf_final_src G s)⟩
  | @step u w k hw hadj ih =>
    have hnq : u ∉ (bfsFinal G s).queue := by
      rw [bfsFinal_queue]
      simp
    have hpc := (bfsFinal_inv G s).processed_closed u ih.1 hnq w hadj
    refine ⟨hpc.1, ?_⟩
    have := hpc.2
    omega

/-- Completeness at termination: every visited node has a walk of exactly
its recorded level. -/
theorem visited_walk (G : Graph) (s : Nat) :
    ∀ (n v : Nat), v ∈ (bfsFinal G s).visited → lvOf (bfsFinal G s) v = n →
      HasWalk G s v n := by
  intro n
  induction n using Nat.strong_induction_on with
  | _ n ih =>
    intro v hv hlv
    by_cases hvs : v = s
    · subst hvs
      have h0 : n = 0 := by rw [← hlv, lvOf_final_src]
      subst h0
      exact HasWalk.refl
    · obtain ⟨u, _, hu2, hu3, hu4⟩ := (bfsFinal_inv G s).parent_edge v hv hvs
      have hlt : lvOf (bfsFinal G s) u < n := by omega
      have hw := ih (lvOf (bfsFinal G s) u) hlt u hu2 rfl
      have hn : n = lvOf (bfsFinal G s) u + 1 := by omega
      rw [hn]
      exact HasWalk.step hw hu3

theorem bfs_from_eq (G : Graph) (s : Nat) :
    bfs_from G s =
      ⟨(bfsFinal G s).visited, (bfsFinal G s).parent, (bfsFinal G s).level,
        (bfsFinal G s).visited.length⟩ := rfl

theorem msbfs_lookup (G : Graph) :
    ∀ (sources : List Nat) (s : Nat) (res : BFSResult),
      alookup s (multi_source_bfs G sources) = some res ↔
        s ∈ sources ∧ s ∈ G.nodes ∧ res = bfs_from G s := by
  intro sources
  induction sources with
  | nil => intro s res; simp [multi_source_bfs, alookup]
  | cons t rest ih =>
    intro s res
    by_cases ht : t ∈ G.nodes
    · simp only [multi_source_bfs, if_pos ht]
      by_cases hts : t = s
      · subst hts
        constructor
        · intro h
          simp only [alookup, if_true, eq_self_iff_true, Option.some.injEq] at h
          exact ⟨List.mem_cons_self _ _, ht, h.symm⟩
        · rintro ⟨_, _, hres⟩
          simp [alookup, hres]
      · constructor
        · intro h
          simp only [alookup, if_neg hts] at h
          obtain ⟨h1, h2, h3⟩ := (ih s res).mp h
          exact ⟨List.mem_cons_of_mem _ h1, h2, h3⟩
        · rintro ⟨h1, h2, h3⟩
          simp only [alookup, if_neg hts]
          refine (ih s res).mpr ⟨?_, h2, h3⟩
          rcases List.mem_cons.mp h1 with h | h
          · exact absurd h.symm hts
          · exact h
    · simp only [multi_source_bfs, if_neg ht]
      rw [ih]
      constructor
      · rintro ⟨h1, h2, h3⟩
        exact ⟨List.mem_cons_of_mem _ h1, h2, h3⟩
      · rintro ⟨h1, h2, h3⟩
        rcases List.mem_cons.mp h1 with h | h
        · rw [h] at h2
          exact absurd h2 ht
        · exact ⟨h, h2, h3⟩

theorem msbfs_isSome (G : Graph) (sources : List Nat) (s : Nat) :
    (alookup s (multi_source_bfs G sources)).isSome ↔ s ∈ sources ∧ s ∈ G.nodes := by
  constructor
  · intro h
    obtain ⟨res, hres⟩ := Option.isSome_iff_exists.mp h
    obtain ⟨h1, h2, _⟩ := (msbfs_lookup G sources s res).mp hres
    exact ⟨h1, h2⟩
  · rintro ⟨h1, h2⟩
    rw [Option.isSome_iff_exists]
    exact ⟨bfs_from G s, (msbfs_lookup G sources s (bfs_from G s)).mpr ⟨h1, h2, rfl⟩⟩

/-! ## Path reconstruction -/

theorem followParents_chain {G : Graph} {s : Nat} {st : BFSState}
    (inv : BFSInv G s st) :
    ∀ (fuel : Nat) (v : Nat), v ∈ st.visited → lvOf st v + 1 ≤ fuel →
      (followParents st.parent fuel v).length = lvOf st v + 1 ∧
      (followParents st.parent fuel v).head? = some v ∧
      (followParents st.parent fuel v).getLast? = some s := by
  intro fuel
  induction fuel with
  | zero => intro v _ h; exact absurd h (by omega)
  | succ n ih =>
    intro v hv hle
    by_cases hvs : v = s
    · subst hvs
      have h0 : lvOf st v = 0 := by simp [lvOf, inv.src_level]
      have hfp : followParents st.parent (n + 1) v = [v] := by
        simp [followParents, inv.src_parent]
      rw [hfp, h0]
      exact ⟨rfl, rfl, rfl⟩
    · obtain ⟨u, hu1, hu2, _, hu4⟩ := inv.parent_edge v hv hvs
      have hle' : lvOf st u + 1 ≤ n := by omega
      obtain ⟨ihl, ihh, ihg⟩ := ih u hu2 hle'
      have hfp : followParents st.parent (n + 1) v =
          v :: followParents st.parent n u := by
        simp [followParents, hu1]
      refine ⟨?_, ?_, ?_⟩
      · rw [hfp]
        simp only [List.length_cons, ihl]
        omega
      · rw [hfp]; rfl
      · rw [hfp]
        cases hL : followParents st.parent n u with
        | nil => rw [hL] at ihl; simp at ihl
        | cons x xs =>
          rw [hL] at ihg
          rw [List.getLast?_cons_cons]
          exact ihg

/-! ## Maximum recorded level -/

theorem le_foldl_max : ∀ (l : List Nat) (a : Nat), a ≤ l.foldl max a := by
  intro l
  induction l with
  | nil => intro a; simp
  | cons b l ih =>
    intro a
    exact le_trans (le_max_left a b) (ih (max a b))

theorem mem_le_foldl_max : ∀ (l : List Nat) (a x : Nat), x ∈ l → x ≤ l.foldl max a := by
  intro l
  induction l with
  | nil => intro a x hx; simp at hx
  | cons b l ih =>
    intro a x hx
    rcases List.mem_cons.mp hx with h | h
    · subst h
      exact le_trans (le_max_right a x) (le_foldl_max l (max a x))
    · exact ih (max a b) x h

theorem foldl_max_mem : ∀ (l : List Nat) (a : Nat), l.foldl max a = a ∨ l.foldl max a ∈ l := by
  intro l
  induction l with
  | nil => intro a; left; rfl
  | cons b l ih =>
    intro a
    rcases ih (max a b) with h | h
    · rcases max_choice a b with h2 | h2
      · left
        rw [List.foldl_cons, h, h2]
      · right
        rw [List.foldl_cons, h, h2]
        exact List.mem_cons_self _ _
    · right
      exact List.mem_cons_of_mem _ h

theorem mem_neighbors_endpoint {G : Graph} {u x : Nat} (h : x ∈ G.neighbors u) :
    ∃ e ∈ G.edges, x = e.1 ∨ x = e.2 := by
  unfold Graph.neighbors at h
  obtain ⟨e, he, hfe⟩ := List.mem_filterMap.mp h
  refine ⟨e, he, ?_⟩
  by_cases h1 : e.1 = u
  · simp only [h1, if_true, Option.some.injEq] at hfe
    exact Or.inr hfe.symm
  · by_cases h2 : e.2 = u
    · simp only [h1, h2, if_false, if_true, Option.some.injEq] at hfe
      exact Or.inl hfe.symm
    · simp [h1, h2] at hfe

theorem walk_end_mem {G : Graph} {s : Nat} (hs : s ∈ G.nodes)
    (hcl : ∀ e ∈ G.edges, e.1 ∈ G.nodes ∧ e.2 ∈ G.nodes) :
    ∀ {v k}, HasWalk G s v k → v ∈ G.nodes := by
  intro v k h
  induction h with
  | refl => exact hs
  | step _ hadj ih =>
    obtain ⟨e, he, hc⟩ := mem_neighbors_endpoint hadj
    rcases hc with hc | hc
    · rw [hc]; exact (hcl e he).1
    · rw [hc]; exact (hcl e he).2

theorem bfs_from_visited (G : Graph) (s : Nat) :
    (bfs_from G s).visited = (bfsFinal G s).visited := rfl

theorem bfs_from_parent (G : Graph) (s : Nat) :
    (bfs_from G s).parent = (bfsFinal G s).parent := rfl

theorem bfs_from_level (G : Graph) (s : Nat) :
    (bfs_from G s).level = (bfsFinal G s).level := rfl

/-! ## Claim theorems: traversal engine -/

/-- Claim C3: for every source that `multi_source_bfs` actually processed,
the result's visited set is exactly the set of nodes reachable from the
source, each reachable node appears in it exactly once, and the recorded
level of every visited node is the exact minimum hop-count distance from
the source; consequently, on a well-formed connected graph, BFS visits all
nodes and the maximum recorded level is the eccentricity of the source
(every node is within that distance, and some node attains it). -/
theorem multi_source_bfs_correct (G : Graph) (sources : List Nat) (s : Nat)
    (res : BFSResult)
    (hres : alookup s (multi_source_bfs G sources) = some res) :
    (∀ v, v ∈ res.visited ↔ ∃ k, HasWalk G s v k) ∧
    res.visited.Nodup ∧
    (∀ v ∈ res.visited, ∃ d, alookup v res.level = some d ∧ HasWalk G s v d ∧
      ∀ k, HasWalk G s v k → d ≤ k) ∧
    ((∀ e ∈ G.edges, e.1 ∈ G.nodes ∧ e.2 ∈ G.nodes) →
      (∀ v ∈ G.nodes, ∃ k, HasWalk G s v k) →
      (∀ v ∈ G.nodes, v ∈ res.visited) ∧
      (∀ v ∈ G.nodes, ∀ d, HasWalk G s v d → (∀ k, HasWalk G s v k → d ≤ k) →
        d ≤ maxLevelOf res) ∧
      (∃ v ∈ G.nodes, HasWalk G s v (maxLevelOf res) ∧
        ∀ k, HasWalk G s v k → maxLevelOf res ≤ k)) := by
  obtain ⟨hs_src, hs_node, hres_eq⟩ := (msbfs_lookup G sources s res).mp hres
  subst hres_eq
  have inv := bfsFinal_inv G s
  refine ⟨?_, ?_, ?_, ?_⟩
  · intro v
    rw [bfs_from_visited]
    constructor
    · intro hv
      exact ⟨lvOf (bfsFinal G s) v, visited_walk G s _ v hv rfl⟩
    · rintro ⟨k, hk⟩
      exact (walk_visited_le G s hk).1
  · rw [bfs_from_visited]
    exact inv.vis_nodup
  · intro v hv
    rw [bfs_from_visited] at hv
    obtain ⟨d, hd⟩ := Option.isSome_iff_exists.mp ((inv.level_keys v).mpr hv)
    have hlv : lvOf (bfsFinal G s) v = d := by simp [lvOf, hd]
    refine ⟨d, ?_, ?_, ?_⟩
    · rw [bfs_from_level]
      exact hd
    · rw [← hlv]
      exact visited_walk G s _ v hv rfl
    · intro k hk
      have := (walk_visited_le G s hk).2
      omega
  · intro hcl hconn
    have hall : ∀ v ∈ G.nodes, v ∈ (bfs_from G s).visited := by
      intro v hvn
      obtain ⟨k, hk⟩ := hconn v hvn
      rw [bfs_from_visited]
      exact (walk_visited_le G s hk).1
    have hml : maxLevelOf (bfs_from G s) =
        ((bfsFinal G s).level.map (fun p => p.2)).foldl max 0 := rfl
    refine ⟨hall, ?_, ?_⟩
    · intro v hvn d hwd hmin
      have hv : v ∈ (bfsFinal G s).visited := by
        rw [← bfs_from_visited]
        exact hall v hvn
      have hdlv : d ≤ lvOf (bfsFinal G s) v :=
        hmin _ (visited_walk G s (lvOf (bfsFinal G s) v) v hv rfl)
      obtain ⟨d', hd'⟩ := Option.isSome_iff_exists.mp ((inv.level_keys v).mpr hv)
      have hlv : lvOf (bfsFinal G s) v = d' := by simp [lvOf, hd']
      have hval : d' ∈ (bfsFinal G s).level.map (fun p => p.2) :=
        List.mem_map_of_mem _ (mem_of_alookup_eq_some hd')
      have hle := mem_le_foldl_max _ 0 d' hval
      rw [hml]
      omega
    · have h0mem : (0 : Nat) ∈ (bfsFinal G s).level.map (fun p => p.2) :=
        List.mem_map_of_mem _ (mem_of_alookup_eq_some inv.src_level)
      have hmlmem : ((bfsFinal G s).level.map (fun p => p.2)).foldl max 0 ∈
          (bfsFinal G s).level.map (fun p => p.2) := by
        rcases foldl_max_mem ((bfsFinal G s).level.map (fun p => p.2)) 0 with h | h
        · rw [h]; exact h0mem
        · exact h
      obtain ⟨p, hp_mem, hp_val⟩ := List.mem_map.mp hmlmem
      have hp_pair : (p.1, p.2) ∈ (bfsFinal G s).level := by simpa using hp_mem
      have hlook : alookup p.1 (bfsFinal G s).level = some p.2 :=
        alookup_of_mem_of_keys_nodup hp_pair inv.level_nodup
      have hv : p.1 ∈ (bfsFinal G s).visited := by
        refine (inv.level_keys p.1).mp ?_
        rw [hlook]
        rfl
      have hlv : lvOf (bfsFinal G s) p.1 = p.2 := by simp [lvOf, hlook]
      have hwalk := visited_walk G s p.2 p.1 hv hlv
      refine ⟨p.1, walk_end_mem hs_node hcl hwalk, ?_, ?_⟩
      · rw [hml, ← hp_val]
        exact hwalk
      · intro k hk
        have h2 := (walk_visited_le G s hk).2
        rw [hml, ← hp_val]
        omega

/-- Witness for C3: the BFS result from node 0 on the path `0 - 1 - 2`. -/
theorem multi_source_bfs_correct_witness :
    (alookup 0 (multi_source_bfs path3 [0]) = some path3Res) ∧
    ((∀ v, v ∈ path3Res.visited ↔ ∃ k, HasWalk path3 0 v k) ∧
     path3Res.visited.Nodup ∧
     (∀ v ∈ path3Res.visited, ∃ d, alookup v path3Res.level = some d ∧
       HasWalk path3 0 v d ∧ ∀ k, HasWalk path3 0 v k → d ≤ k) ∧
     ((∀ e ∈ path3.edges, e.1 ∈ path3.nodes ∧ e.2 ∈ path3.nodes) →
       (∀ v ∈ path3.nodes, ∃ k, HasWalk path3 0 v k) →
       (∀ v ∈ path3.nodes, v ∈ path3Res.visited) ∧
       (∀ v ∈ path3.nodes, ∀ d, HasWalk path3 0 v d →
         (∀ k, HasWalk path3 0 v k → d ≤ k) → d ≤ maxLevelOf path3Res) ∧
       (∃ v ∈ path3.nodes, HasWalk path3 0 v (maxLevelOf path3Res) ∧
         ∀ k, HasWalk path3 0 v k → maxLevelOf path3Res ≤ k))) :=
  ⟨by decide, multi_source_bfs_correct path3 [0] 0 path3Res (by decide)⟩

/-- Claim C2: `get_path(s, t)` after a `multi_source_bfs` run returns `None`
when BFS was not run from `s` or `t` was not reached; otherwise it returns a
sequence starting at `s`, ending at `t`, of length `level[t] + 1`. -/
theorem get_path_spec (G : Graph) (sources : List Nat) (s t : Nat) :
    (alookup s (multi_source_bfs G sources) = none →
      get_path ⟨G, multi_source_bfs G sources⟩ s t = none) ∧
    (∀ info, alookup s (multi_source_bfs G sources) = some info →
      (t ∉ info.visited → get_path ⟨G, multi_source_bfs G sources⟩ s t = none) ∧
      (t ∈ info.visited → ∃ p k,
        get_path ⟨G, multi_source_bfs G sources⟩ s t = some p ∧
        alookup t info.level = some k ∧ p.length = k + 1 ∧
        p.head? = some s ∧ p.getLast? = some t)) := by
  constructor
  · intro h
    simp [get_path, h]
  · intro info hinfo
    obtain ⟨hs_src, hs_node, heq⟩ := (msbfs_lookup G sources s info).mp hinfo
    subst heq
    constructor
    · intro ht
      simp [get_path, hinfo, ht]
    · intro ht
      have inv := bfsFinal_inv G s
      rw [bfs_from_visited] at ht
      have hlt : lvOf (bfsFinal G s) t < (bfsFinal G s).visited.length :=
        inv.lv_lt_len t ht
      have hfuel : lvOf (bfsFinal G s) t + 1 ≤ (bfsFinal G s).parent.length + 1 := by
        have := inv.parent_len
        omega
      obtain ⟨hlen, hhead, hlast⟩ :=
        followParents_chain inv ((bfsFinal G s).parent.length + 1) t ht hfuel
      obtain ⟨d, hd⟩ := Option.isSome_iff_exists.mp ((inv.level_keys t).mpr ht)
      have hlvd : lvOf (bfsFinal G s) t = d := by simp [lvOf, hd]
      refine ⟨(followParents (bfsFinal G s).parent
        ((bfsFinal G s).parent.length + 1) t).reverse, d, ?_, ?_, ?_, ?_, ?_⟩
      · simp only [get_path, hinfo, bfs_from_visited, bfs_from_parent]
        rw [if_pos ht]
      · rw [bfs_from_level]
        exact hd
      · rw [List.length_reverse, hlen, hlvd]
      · rw [List.head?_reverse, hlast]
      · rw [List.getLast?_reverse, hhead]

/-- Witness for C2: the reconstructed path from 0 to 2 on the path graph. -/
theorem get_path_spec_witness :
    ∃ p k, get_path ⟨path3, multi_source_bfs path3 [0]⟩ 0 2 = some p ∧
      alookup 2 path3Res.level = some k ∧ p.length = k + 1 ∧
      p.head? = some 0 ∧ p.getLast? = some 2 :=
  ((get_path_spec path3 [0] 0 2).2 path3Res (by decide)).2 (by decide)

/-- Claim C8: `multi_source_bfs` on an empty source list returns the empty
mapping, and in general a source appears in the returned mapping exactly
when it is listed and present in the graph — absent sources are skipped
without aborting the others. -/
theorem multi_source_bfs_sources_spec (G : Graph) (sources : List Nat) :
    multi_source_bfs G [] = [] ∧
    (∀ s, (alookup s (multi_source_bfs G sources)).isSome ↔
      s ∈ sources ∧ s ∈ G.nodes) :=
  ⟨rfl, fun s => msbfs_isSome G sources s⟩

/-- Witness for C8 with a present source 0 and an absent source 99. -/
theorem multi_source_bfs_sources_spec_witness :
    multi_source_bfs path3 [] = [] ∧
    (∀ s, (alookup s (multi_source_bfs path3 [0, 99])).isSome ↔
      s ∈ [0, 99] ∧ s ∈ path3.nodes) :=
  multi_source_bfs_sources_spec path3 [0, 99]

/-- Claim C9: `multi_source_bfs` rebuilds `self.bfs_paths` from scratch, so
after an invocation whose listed sources are all absent from the graph
(including the empty list), `get_path` yields `None` for every pair,
whatever results an earlier invocation had stored. -/
theorem multi_source_bfs_resets (st : AnalyzerState) (sources : List Nat)
    (habs : ∀ s ∈ sources, s ∉ st.graph.nodes) :
    (run_multi_source_bfs st sources).bfs_paths =
      multi_source_bfs st.graph sources ∧
    ∀ s t, get_path (run_multi_source_bfs st sources) s t = none := by
  refine ⟨rfl, ?_⟩
  intro s t
  have hnone : alookup s (multi_source_bfs st.graph sources) = none := by
    cases h : alookup s (multi_source_bfs st.graph sources) with
    | none => rfl
    | some r =>
      obtain ⟨h1, h2, _⟩ := (msbfs_lookup st.graph sources s r).mp h
      exact absurd h2 (habs s h1)
  simp [get_path, run_multi_source_bfs, hnone]

/-- Witness for C9: a state holding results from an earlier run from 0 is
wiped by a run on the absent source 99. -/
theorem multi_source_bfs_resets_witness :
    (∀ s ∈ [99], s ∉ (AnalyzerState.mk path3 (multi_source_bfs path3 [0])).graph.nodes) ∧
    ((run_multi_source_bfs (AnalyzerState.mk path3 (multi_source_bfs path3 [0])) [99]).bfs_paths =
      multi_source_bfs path3 [99] ∧
     ∀ s t, get_path
       (run_multi_source_bfs (AnalyzerState.mk path3 (multi_source_bfs path3 [0])) [99]) s t = none) :=
  ⟨by decide, multi_source_bfs_resets (AnalyzerState.mk path3 (multi_source_bfs path3 [0])) [99] (by decide)⟩

/-! ## Claim theorems: structural analysis -/

/-- Claim C1 (refuted — code bug): the cycle flag `analyze_graph` computes
by iterating `nx.simple_cycles` over the directed version of the graph is
true for the single-edge tree on `{0, 1}` (every undirected edge becomes a
directed 2-cycle), although no connected component of that graph has at
least as many edges as nodes: the specification's criterion evaluates to
false there. -/
theorem cycle_flag_code_bug :
    (analyze_graph (Graph.mk [0, 1] [(0, 1)] [])).map AnalysisResult.has_cycle =
      Except.ok true ∧
    specCycleFlag (Graph.mk [0, 1] [(0, 1)] []) = false ∧
    componentsList (Graph.mk [0, 1] [(0, 1)] []) = [[1, 0]] ∧
    (Graph.mk [0, 1] [(0, 1)] []).edges.length = 1 := by
  refine ⟨by decide, by decide, by decide, rfl⟩

/-- Claim C4 (refuted on the zero-node graph — code bug): `analyze_graph`
propagates the error `nx.is_connected` raises on the null graph instead of
returning a result; on every graph with at least one node the analysis does
complete, with the documented density fallback for `n ≤ 1` and degree
statistics present. -/
theorem analyze_graph_null_raises (G : Graph) (hne : G.nodes ≠ []) :
    analyze_graph (Graph.mk [] [] []) =
      Except.error "Connectivity is undefined for the null graph." ∧
    ∃ r, analyze_graph G = Except.ok r ∧
      (G.nodes.length ≤ 1 → r.density = 0) ∧
      r.degreeStats.isSome ∧ r.n_nodes = G.nodes.length ∧
      r.has_cycle = has_cycle_flag G := by
  constructor
  · rfl
  · obtain ⟨v, rest, hG⟩ : ∃ v rest, G.nodes = v :: rest := by
      cases h : G.nodes with
      | nil => exact absurd h hne
      | cons v rest => exact ⟨v, rest, rfl⟩
    have hic : is_connected G = Except.ok (connectedB G) := by
      simp only [is_connected, hG]
    simp only [analyze_graph, hic]
    refine ⟨_, rfl, ?_, ?_, rfl, rfl⟩
    · intro h1
      simp only [if_pos h1]
    · simp [hG]

/-- Witness for C4 at the one-node graph. -/
theorem analyze_graph_null_raises_witness :
    (Graph.mk [0] [] []).nodes ≠ [] ∧
    (analyze_graph (Graph.mk [] [] []) =
      Except.error "Connectivity is undefined for the null graph." ∧
     ∃ r, analyze_graph (Graph.mk [0] [] []) = Except.ok r ∧
       ((Graph.mk [0] [] []).nodes.length ≤ 1 → r.density = 0) ∧
       r.degreeStats.isSome ∧ r.n_nodes = (Graph.mk [0] [] []).nodes.length ∧
       r.has_cycle = has_cycle_flag (Graph.mk [0] [] [])) :=
  ⟨by decide, analyze_graph_null_raises (Graph.mk [0] [] []) (by decide)⟩

/-- Claim C5 (refuted — code bug): for the disconnected graph on `{0,1,2}`
with the single edge `(0,1)`, `analyze_graph` stores the largest-component
average (1) in the very `avg_shortest_path` field that reports the
graph-wide metric, instead of leaving it unavailable; the two-isolated-node
scenario does store the "no value" result only because its largest
component is a single node. -/
theorem avg_path_conflation :
    (analyze_graph (Graph.mk [0, 1, 2] [(0, 1)] [])).map
        AnalysisResult.avg_shortest_path = Except.ok (some 1) ∧
    connectedB (Graph.mk [0, 1, 2] [(0, 1)] []) = false ∧
    (analyze_graph (Graph.mk [0, 1] [] [])).map
        AnalysisResult.avg_shortest_path = Except.ok none := by
  have hic : is_connected (Graph.mk [0, 1, 2] [(0, 1)] []) = Except.ok false := by
    decide
  have hcomp : componentsList (Graph.mk [0, 1, 2] [(0, 1)] []) = [[1, 0], [2]] := by
    decide
  have hmax : maxByLen [[1, 0], [2]] = [1, 0] := by decide
  have hsub : subgraphOn (Graph.mk [0, 1, 2] [(0, 1)] []) [1, 0] =
      Graph.mk [0, 1] [(0, 1)] [] := by decide
  have havg : average_shortest_path_length (Graph.mk [0, 1] [(0, 1)] []) =
      Except.ok 1 := by
    have hconn : connectedB (Graph.mk [0, 1] [(0, 1)] []) = true := by decide
    have hsum : pairDistSum (Graph.mk [0, 1] [(0, 1)] []) = 2 := by decide
    simp only [average_shortest_path_length, hconn, hsum]
    norm_num
  refine ⟨?_, by decide, ?_⟩
  · simp only [analyze_graph, hic, hcomp, hmax, hsub, havg, Except.map]
    norm_num
  · have hic2 : is_connected (Graph.mk [0, 1] [] []) = Except.ok false := by decide
    have hcomp2 : componentsList (Graph.mk [0, 1] [] []) = [[0], [1]] := by decide
    have hmax2 : maxByLen [[0], [1]] = [0] := by decide
    simp only [analyze_graph, hic2, hcomp2, hmax2, Except.map]
    norm_num

/-! ## Claim theorem: saving -/

/-- Claim C10: a successful `save_graph` leaves the analyzer state — in
particular the stored graph's node set, edge set, and node attributes —
unchanged; the serialized form is a stringified copy (its edge list is the
stringified edge list of the stored graph and its node labels are the
stringified node list), carrying the computed attributes only in that
copy. -/
theorem save_graph_frame (st : AnalyzerState) (sg : StringGraph)
    (st' : AnalyzerState) (h : save_graph st = (Except.ok sg, st')) :
    st' = st ∧ st'.graph.nodes = st.graph.nodes ∧
    st'.graph.edges = st.graph.edges ∧ st'.graph.attrs = st.graph.attrs ∧
    sg.edges = st.graph.edges.map (fun e => (toString e.1, toString e.2)) ∧
    sg.nodes.map Prod.fst = st.graph.nodes.map toString := by
  by_cases hemp : st.graph.nodes.length = 0
  · simp [save_graph, hemp] at h
  · simp only [save_graph, if_neg hemp] at h
    rw [Prod.mk.injEq] at h
    obtain ⟨h1, h2⟩ := h
    rw [Except.ok.injEq] at h1
    subst h2
    refine ⟨rfl, rfl, rfl, rfl, ?_, ?_⟩
    · rw [← h1]
    · rw [← h1, List.map_map]
      rfl

/-- Witness for C10 on a one-node state with an original attribute. -/
theorem save_graph_frame_witness :
    save_graph saveState = (Except.ok saveStateOut, saveState) ∧
    (saveState = saveState ∧
     saveState.graph.nodes = saveState.graph.nodes ∧
     saveState.graph.edges = saveState.graph.edges ∧
     saveState.graph.attrs = saveState.graph.attrs ∧
     saveStateOut.edges =
       saveState.graph.edges.map (fun e => (toString e.1, toString e.2)) ∧
     saveStateOut.nodes.map Prod.fst = saveState.graph.nodes.map toString) :=
  ⟨by decide, save_graph_frame saveState saveStateOut saveState (by decide)⟩

/-! ## Generator lemmas -/

theorem pickEdges_all {p : ℝ} {rand : Nat → ℝ} (h : ∀ k, rand k < p) :
    ∀ (l : List (Nat × Nat)) (k : Nat), pickEdges p rand k l = l := by
  intro l
  induction l with
  | nil => intro k; simp [pickEdges]
  | cons e rest ih =>
    intro k
    simp only [pickEdges, if_pos (h k)]
    rw [ih (k + 1)]

theorem pickEdges_sublist (p : ℝ) (rand : Nat → ℝ) :
    ∀ (l : List (Nat × Nat)) (k : Nat), (pickEdges p rand k l).Sublist l := by
  intro l
  induction l with
  | nil => intro k; simp [pickEdges]
  | cons e rest ih =>
    intro k
    by_cases h : rand k < p
    · simp only [pickEdges, if_pos h]
      exact (ih (k + 1)).cons₂ e
    · simp only [pickEdges, if_neg h]
      exact (ih (k + 1)).cons e

theorem allPairs_mem (n i j : Nat) : (i, j) ∈ allPairs n ↔ i < j ∧ j < n := by
  simp only [allPairs, List.mem_flatMap, List.mem_map, List.mem_range,
    List.mem_range'_1]
  constructor
  · rintro ⟨a, ha, b, hb, hab⟩
    injection hab with h1 h2
    subst h1
    subst h2
    omega
  · rintro ⟨h1, h2⟩
    exact ⟨i, by omega, j, by omega, rfl⟩

theorem allPairs_nodup (n : Nat) : (allPairs n).Nodup := by
  unfold allPairs
  rw [List.nodup_flatMap]
  constructor
  · intro i _
    refine List.Nodup.map ?_ (List.nodup_range' _ _)
    intro a b hab
    injection hab
  · refine (List.pairwise_lt_range n).imp ?_
    intro a b hab
    intro x hxa hxb
    simp only [List.mem_map] at hxa hxb
    obtain ⟨j1, _, hx1⟩ := hxa
    obtain ⟨j2, _, hx2⟩ := hxb
    rw [← hx1] at hx2
    injection hx2 with h1 _
    omega

theorem sum_map_succ (g : Nat → Nat) :
    ∀ (l : List Nat), (l.map (fun x => g x + 1)).sum = (l.map g).sum + l.length := by
  intro l
  induction l with
  | nil => simp
  | cons b l ih =>
    simp only [List.map_cons, List.sum_cons, List.length_cons, ih]
    omega

theorem sum_range_sub : ∀ n : Nat,
    2 * ((List.range n).map (fun i => n - (i + 1))).sum = n * (n - 1) := by
  intro n
  induction n with
  | zero => simp
  | succ m ih =>
    rw [List.range_succ, List.map_append, List.sum_append]
    have hlast : ([m].map (fun i => m + 1 - (i + 1))).sum = 0 := by simp
    have h2 : (List.range m).map (fun i => m + 1 - (i + 1)) =
        (List.range m).map (fun i => (m - (i + 1)) + 1) := by
      apply List.map_congr_left
      intro a ha
      rw [List.mem_range] at ha
      omega
    rw [hlast, h2, sum_map_succ, List.length_range]
    cases m with
    | zero => simp
    | succ k =>
      have hexp : (k + 1 + 1) * (k + 1 + 1 - 1) = (k + 1) * (k + 1 - 1) + 2 * (k + 1) := by
        simp only [Nat.add_sub_cancel]
        ring
      rw [hexp]
      omega

theorem allPairs_length (n : Nat) : 2 * (allPairs n).length = n * (n - 1) := by
  rw [allPairs, List.length_flatMap]
  have h1 : (List.range n).map
      (List.length ∘ fun i => (List.range' (i + 1) (n - (i + 1))).map (fun j => (i, j))) =
      (List.range n).map (fun i => n - (i + 1)) := by
    apply List.map_congr_left
    intro a _
    simp [List.length_range']
  rw [h1]
  exact sum_range_sub n

theorem buildER_props (n : Nat) (p : ℝ) (rand : Nat → ℝ) :
    (buildER n p rand).nodes = List.range n ∧
    (buildER n p rand).nodes.length = n ∧
    (∀ e ∈ (buildER n p rand).edges, e.1 ≠ e.2) ∧
    (buildER n p rand).edges.Nodup := by
  refine ⟨rfl, by simp [buildER], ?_, ?_⟩
  · rintro ⟨i, j⟩ he
    have hmem : (i, j) ∈ allPairs n :=
      (pickEdges_sublist p rand (allPairs n) 0).subset he
    have := (allPairs_mem n i j).mp hmem
    simp only [ne_eq]
    omega
  · exact List.Nodup.sublist (pickEdges_sublist p rand (allPairs n) 0) (allPairs_nodup n)

/-! ## Claim theorems: generator -/

/-- Claim C6: when the computed probability `p = (c·ln n)/n` exceeds 1,
`create_erdos_renyi_graph` clamps it to 1 non-fatally (the warning flag
fires) and, since every uniform draw lies in `[0, 1)`, returns the complete
graph on `n` nodes with all `n(n-1)/2` edges; moreover every successful
generation yields nodes labeled `0 .. n-1` with no self-loops and no
duplicate edges. -/
theorem create_er_spec (n : Int) (c : ℝ) (rand : Nat → ℝ)
    (hn : 0 < n) (hr : ∀ k, 0 ≤ rand k ∧ rand k < 1) :
    (1 < c * Real.log (n : ℝ) / (n : ℝ) →
      create_erdos_renyi_graph n c rand =
        Except.ok (⟨List.range n.toNat, allPairs n.toNat, []⟩, true) ∧
      2 * (allPairs n.toNat).length = n.toNat * (n.toNat - 1)) ∧
    (∀ G w, create_erdos_renyi_graph n c rand = Except.ok (G, w) →
      G.nodes = List.range n.toNat ∧ G.nodes.length = n.toNat ∧
      (∀ e ∈ G.edges, e.1 ≠ e.2) ∧ G.edges.Nodup) := by
  have hn0 : ¬ n ≤ 0 := by omega
  constructor
  · intro hp
    have hnneg : ¬ (c * Real.log (n : ℝ) / (n : ℝ) < 0) := by linarith
    refine ⟨?_, allPairs_length n.toNat⟩
    simp only [create_erdos_renyi_graph, if_neg hn0, if_neg hnneg, if_pos hp]
    unfold buildER
    rw [pickEdges_all (fun k => (hr k).2)]
  · intro G w hok
    simp only [create_erdos_renyi_graph, if_neg hn0] at hok
    by_cases h1 : c * Real.log (n : ℝ) / (n : ℝ) < 0
    · rw [if_pos h1] at hok
      exact absurd hok (by simp)
    · rw [if_neg h1] at hok
      by_cases h2 : 1 < c * Real.log (n : ℝ) / (n : ℝ)
      · rw [if_pos h2] at hok
        rw [Except.ok.injEq, Prod.mk.injEq] at hok
        rw [← hok.1]
        exact buildER_props n.toNat 1 rand
      · rw [if_neg h2] at hok
        rw [Except.ok.injEq, Prod.mk.injEq] at hok
        rw [← hok.1]
        exact buildER_props n.toNat _ rand

/-- Witness for C6 at `n = 3`, `c = 10`, where `p = 10·ln 3/3 > 2 > 1`. -/
theorem create_er_spec_witness :
    ((0 : Int) < 3 ∧ (∀ k, (0 : ℝ) ≤ randZero k ∧ randZero k < 1) ∧
      1 < (10 : ℝ) * Real.log ((3 : Int) : ℝ) / ((3 : Int) : ℝ)) ∧
    (create_erdos_renyi_graph 3 10 randZero =
      Except.ok (⟨List.range (3 : Int).toNat, allPairs (3 : Int).toNat, []⟩, true) ∧
     2 * (allPairs (3 : Int).toNat).length = (3 : Int).toNat * ((3 : Int).toNat - 1)) := by
  have hr : ∀ k, (0 : ℝ) ≤ randZero k ∧ randZero k < 1 := by
    intro k
    constructor <;> norm_num [randZero]
  have hlog : 1 < (10 : ℝ) * Real.log ((3 : Int) : ℝ) / ((3 : Int) : ℝ) := by
    have hcast : ((3 : Int) : ℝ) = 3 := by norm_num
    have h2 : Real.log 2 ≤ Real.log 3 := Real.log_le_log (by norm_num) (by norm_num)
    have h3 := Real.log_two_gt_d9
    rw [hcast]
    rw [lt_div_iff₀ (by norm_num : (0:ℝ) < 3)]
    nlinarith
  exact ⟨⟨by norm_num, hr, hlog⟩,
    (create_er_spec 3 10 randZero (by norm_num) hr).1 hlog⟩

/-- Claim C7: the generator fails with the positivity error whenever
`n ≤ 0`, fails with the negative-probability error whenever
`p = (c·ln n)/n < 0`, and for `n ≥ 1` that negativity occurs exactly when
`c < 0` and `n > 1`. -/
theorem create_er_invalid (n : Int) (c : ℝ) (rand : Nat → ℝ) :
    (n ≤ 0 → create_erdos_renyi_graph n c rand =
      Except.error "Number of nodes must be positive") ∧
    (0 < n →
      (c * Real.log (n : ℝ) / (n : ℝ) < 0 →
        create_erdos_renyi_graph n c rand =
          Except.error "Edge probability cannot be negative") ∧
      (c * Real.log (n : ℝ) / (n : ℝ) < 0 ↔ c < 0 ∧ 1 < n)) := by
  constructor
  · intro h
    simp only [create_erdos_renyi_graph, if_pos h]
  · intro hn
    have hn0 : ¬ n ≤ 0 := by omega
    have hx : (0 : ℝ) < (n : ℝ) := by exact_mod_cast hn
    refine ⟨?_, ?_, ?_⟩
    · intro hneg
      simp only [create_erdos_renyi_graph, if_neg hn0, if_pos hneg]
    · intro hlt
      by_cases h1 : n = 1
      · subst h1
        norm_num [Real.log_one] at hlt
      · have h2 : (1 : Int) < n := by omega
        have hx1 : (1 : ℝ) < (n : ℝ) := by exact_mod_cast h2
        have hlog : 0 < Real.log (n : ℝ) := Real.log_pos hx1
        refine ⟨?_, h2⟩
        rcases div_neg_iff.mp hlt with ⟨_, hb⟩ | ⟨ha, _⟩
        · linarith
        · rcases mul_neg_iff.mp ha with ⟨_, h4⟩ | ⟨h3, _⟩
          · linarith
          · exact h3
    · rintro ⟨hc, h2⟩
      have hx1 : (1 : ℝ) < (n : ℝ) := by exact_mod_cast h2
      exact div_neg_of_neg_of_pos
        (mul_neg_of_neg_of_pos hc (Real.log_pos hx1)) hx

/-- Witness for C7: rejection of `n = -1`, and of `n = 2, c = -1` whose
probability `-ln 2/2` is negative. -/
theorem create_er_invalid_witness :
    ((-1 : Int) ≤ 0 ∧ create_erdos_renyi_graph (-1) 1 randZero =
      Except.error "Number of nodes must be positive") ∧
    ((0 : Int) < 2 ∧ (-1 : ℝ) * Real.log ((2 : Int) : ℝ) / ((2 : Int) : ℝ) < 0 ∧
      create_erdos_renyi_graph 2 (-1) randZero =
        Except.error "Edge probability cannot be negative") := by
  have hneg : (-1 : ℝ) * Real.log ((2 : Int) : ℝ) / ((2 : Int) : ℝ) < 0 := by
    have hcast : ((2 : Int) : ℝ) = 2 := by norm_num
    rw [hcast]
    exact div_neg_of_neg_of_pos
      (mul_neg_of_neg_of_pos (by norm_num) (Real.log_pos (by norm_num)))
      (by norm_num)
  exact ⟨⟨by norm_num, (create_er_invalid (-1) 1 randZero).1 (by norm_num)⟩,
    ⟨by norm_num, hneg,
      ((create_er_invalid 2 (-1) randZero).2 (by norm_num)).1 hneg⟩⟩

end CECS427
